import Mathlib

/-!
Verification development for the `teen_process` process-execution library.

The definitions below are shallow embeddings of the library's source:

* `CircularBuffer` embeds `lib/circular-buffer.ts` (a bounded byte accumulator;
  bytes are modelled as `Nat`, JS buffers as `List Nat`, and the floating-point
  expression `Math.trunc(maxSize * 0.15)` as `maxSize * 15 / 100`, which agrees
  with the JS value at every size used in the development).
* `splitNl`, `cutSuffix`, `processChunk`, `procAll`, `flushResidue` and
  `emittedLines` embed the per-stream line-reassembly logic of the `SubProcess`
  `handleOutput` / `handleLastLines` functions (strings modelled as `List Char`).
* `classify` / `handleExit` embed the `exit` handler of `SubProcess.start`
  in `lib/subprocess.ts`.
* `joinOnExit` / `joinCall` embed `SubProcess.join` of `lib/subprocess.ts`.
* `stopOutcome` and the action lists embed `SubProcess.stop` and the start
  timeout handler of `SubProcess.start` as ordered action traces.
* `execStep` / `runExec` embed the event handlers of the one-shot `exec`
  (stream `data`, process `close`, and the timeout timer), driven by an
  explicit list of events in their delivery order.
* `subProcessNew` embeds the runtime argument validation of the
  `SubProcess` constructor over a model of JS runtime values.
-/

/-! ## Bounded byte accumulator (`lib/circular-buffer.ts`) -/

def MAX_BUFFER_SIZE : Nat := 100 * 1024 * 1024

/-- Sum of the lengths of a list of chunks. -/
def sumLen (bs : List (List Nat)) : Nat := (bs.map List.length).sum

/-- State of `CircularBuffer`: the chunk list `_buf`, the maintained running
total `_size`, and the configured `_maxSize`. -/
structure CircularBuffer where
  maxSize : Nat
  buf : List (List Nat)
  size : Nat
  deriving Repr, DecidableEq

/-- `new CircularBuffer(maxSize)`. -/
def CircularBuffer.mk0 (maxSize : Nat) : CircularBuffer :=
  { maxSize := maxSize, buf := [], size := 0 }

/-- `value()` — concatenation of the retained chunks. -/
def CircularBuffer.value (c : CircularBuffer) : List Nat := c.buf.flatten

/-- `count` getter — number of retained chunks. -/
def CircularBuffer.count (c : CircularBuffer) : Nat := c.buf.length

/-- The `while` loop of `_align`: starting from `shifted`, walk the chunk
list, stopping before the last remaining chunk, while the running shifted
total is `≤ expected`.  Returns `(numberOfItemsToShift, actualShiftedSize)`. -/
def alignShift (buf : List (List Nat)) (expected : Nat) (shifted : Nat) :
    Nat × Nat :=
  match buf with
  | [] => (0, shifted)
  | [_] => (0, shifted)
  | x :: y :: rest =>
    if shifted ≤ expected then
      let r := alignShift (y :: rest) expected (shifted + x.length)
      (r.1 + 1, r.2)
    else (0, shifted)

/-- `_align()`: evict oldest chunks (and possibly slice the first surviving
chunk) once the total exceeds the configured maximum. -/
def CircularBuffer.align (c : CircularBuffer) : CircularBuffer :=
  if c.size ≤ c.maxSize then c
  else
    let expected := c.size - c.maxSize + c.maxSize * 15 / 100
    let r := alignShift c.buf expected 0
    let buf₁ := c.buf.drop r.1
    let size₁ := c.size - r.2
    if r.2 < expected then
      let remainder := expected - r.2
      match buf₁ with
      | [] => { c with buf := [], size := size₁ - remainder }
      | x :: rest =>
        { c with buf := x.drop remainder :: rest, size := size₁ - remainder }
    else { c with buf := buf₁, size := size₁ }

/-- `add(item)` — push the chunk, bump the size, then `_align()`. -/
def CircularBuffer.add (c : CircularBuffer) (item : List Nat) : CircularBuffer :=
  CircularBuffer.align { c with buf := c.buf ++ [item], size := c.size + item.length }

/-- Appending a whole sequence of chunks to a fresh buffer of capacity `m`. -/
def CircularBuffer.addAll (m : Nat) (chunks : List (List Nat)) : CircularBuffer :=
  chunks.foldl CircularBuffer.add (CircularBuffer.mk0 m)

/-- Bookkeeping invariant of the buffer: the maintained `_size` equals the sum
of the lengths of the retained chunks. -/
def CircularBuffer.WF (c : CircularBuffer) : Prop := c.size = sumLen c.buf

/-! ## Line reassembly (`SubProcess#handleOutput` / `handleLastLines`) -/

/-- The line terminator the stream handler splits on. -/
def nlChar : Char := '\n'

/-- Hard cap on the retained partial-line residue (`0xFFFF`). -/
def MAX_LINE_PORTION_LENGTH : Nat := 0xFFFF

/-- `cutSuffix(str, suffixLength)` — keep at most the last `suffixLength`
characters of `str`. -/
def cutSuffix (s : List Char) (suffixLength : Nat) : List Char :=
  if suffixLength < s.length then s.drop (s.length - suffixLength) else s

/-- `str.split('\n')` on a character list; always returns a non-empty list of
pieces (JS semantics: `"".split` gives `[""]`, a trailing terminator gives a
trailing empty piece). -/
def splitNl : List Char → List (List Char)
  | [] => [[]]
  | c :: rest =>
    match splitNl rest with
    | [] => [[]]
    | p :: ps => if c = nlChar then [] :: p :: ps else (c :: p) :: ps

/-- Merge of two split results across a concatenation boundary: the last piece
of the left result fuses with the first piece of the right result. -/
def glue : List (List Char) → List (List Char) → List (List Char)
  | [], ys => ys
  | [x], [] => [x]
  | [x], y :: ys => (x ++ y) :: ys
  | x :: x' :: xs, ys => x :: glue (x' :: xs) ys

/-- One stream-data callback of `handleOutput`, for a single stream: given the
current residue (`lastLinePortion`) and the incoming fragment, return the list
of emitted complete lines and the new residue. -/
def processChunk (residue chunk : List Char) : List (List Char) × List Char :=
  match splitNl chunk with
  | [] => ([], residue)
  | [p] =>
    let currentPortion := cutSuffix p MAX_LINE_PORTION_LENGTH
    if MAX_LINE_PORTION_LENGTH < residue.length + currentPortion.length then
      ([], currentPortion)
    else
      ([], residue ++ currentPortion)
  | p :: q :: ps =>
    (((residue ++ p) :: q :: ps).dropLast,
      cutSuffix ((q :: ps).getLastD []) MAX_LINE_PORTION_LENGTH)

/-- Fold `processChunk` over a sequence of fragments, collecting the emitted
lines in order. -/
def procAll (residue : List Char) : List (List Char) → List (List Char) × List Char
  | [] => ([], residue)
  | c :: cs =>
    let r₁ := processChunk residue c
    let r₂ := procAll r₁.2 cs
    (r₁.1 ++ r₂.1, r₂.2)

/-- `handleLastLines` for one stream: flush a non-empty residue as a final
line and clear it. -/
def flushResidue (residue : List Char) : List (List Char) × List Char :=
  if residue = [] then ([], []) else ([residue], [])

/-- All lines emitted for one stream over a whole run: process every fragment
starting from an empty residue, then flush on exit. -/
def emittedLines (chunks : List (List Char)) : List (List Char) :=
  let r := procAll [] chunks
  r.1 ++ (flushResidue r.2).1

/-- A character list free of the line terminator. -/
def noNl (l : List Char) : Prop := nlChar ∉ l

/-! ## `SubProcess` termination classification (`lib/subprocess.ts`) -/

/-- The events emitted by the `exit` handler. -/
inductive SubEvent
  | exitEv (code : Option Int) (signal : Option String)
  | stopEv (code : Option Int) (signal : Option String)
  | endEv (code : Option Int) (signal : Option String)
  | dieEv (code : Option Int) (signal : Option String)
  deriving Repr, DecidableEq

/-- The classified events are `stop`, `end` and `die`; the generic `exit`
event is not classified. -/
def isClassified : SubEvent → Bool
  | .exitEv _ _ => false
  | _ => true

/-- The observable `SubProcess` lifecycle state: whether a process handle is
present (`proc !== null`) and the `expectingExit` flag. -/
structure SubProcessState where
  proc : Bool
  expectingExit : Bool
  deriving Repr, DecidableEq

/-- `isRunning` getter — presence of the handle. -/
def SubProcessState.isRunning (st : SubProcessState) : Bool := st.proc

/-- The classification logic of the `exit` handler:
`let event = expectingExit ? 'stop' : 'die'; if (!expectingExit && code === 0) event = 'end'`. -/
def classify (expectingExit : Bool) (code : Option Int) (signal : Option String) :
    SubEvent :=
  let event := if expectingExit then SubEvent.stopEv code signal
               else SubEvent.dieEv code signal
  if !expectingExit && code = some 0 then SubEvent.endEv code signal else event

/-- The whole `exit` handler: emit `exit`, then the classified event, then
clear the handle and reset `expectingExit`. Returns the emitted events in
order together with the post-state. -/
def handleExit (st : SubProcessState) (code : Option Int)
    (signal : Option String) : List SubEvent × SubProcessState :=
  ([SubEvent.exitEv code signal, classify st.expectingExit code signal],
    { proc := false, expectingExit := false })

/-! ## `SubProcess.join` (`lib/subprocess.ts`) -/

/-- Message of the not-running failure of `join`. -/
def joinNotRunningMsg (rep : String) : String :=
  "Cannot join process; it is not currently running (cmd: '" ++ rep ++ "')"

/-- Message of the disallowed-exit-code failure of `join`. -/
def joinExitMsg (rep : String) (code : Int) : String :=
  "Process ended with exitcode " ++ toString code ++ " (cmd: '" ++ rep ++ "')"

/-- The `exit` listener installed by `join`:
`if (code !== null && !allowedExitCodes.includes(code)) reject else resolve(code)`. -/
def joinOnExit (allowed : List Int) (code : Option Int) (rep : String) :
    Except String (Option Int) :=
  match code with
  | none => .ok none
  | some c =>
    if allowed.contains c then .ok (some c)
    else .error (joinExitMsg rep c)

/-- `join(allowedExitCodes)`: throw when no handle is present, otherwise
settle according to the exit code eventually reported for the process. -/
def joinCall (isRunning : Bool) (rep : String) (allowed : List Int)
    (code : Option Int) : Except String (Option Int) :=
  if isRunning then joinOnExit allowed code rep
  else .error (joinNotRunningMsg rep)

/-! ## `SubProcess.stop` and the `start` timeout (`lib/subprocess.ts`) -/

/-- Primitive actions performed by `stop` / the timeout handlers, in program
order. -/
inductive PAction
  | registerCloseListener
  | setExpectingExit
  | kill (signal : String)
  | armTimer (ms : Nat)
  | rejectMsg (msg : String)
  | resolveOk
  deriving Repr, DecidableEq

/-- Whether an action sends a signal to the child process. -/
def isKill : PAction → Bool
  | .kill _ => true
  | _ => false

/-- Message of the `stop` timeout rejection. -/
def stopTimeoutMsg (rep : String) (t : Nat) : String :=
  "Process didn't end after " ++ toString t ++ "ms (cmd: '" ++ rep ++ "')"

/-- Message of the `start` timeout rejection. -/
def startTimeoutMsg (rep : String) (t : Nat) : String :=
  "The process did not start within " ++ toString t ++ "ms (cmd: '" ++ rep ++ "')"

/-- The synchronous body of `stop` on a running process, in program order:
register the `close` listener, set `expectingExit`, send the signal, arm the
timeout timer. -/
def stopBodyActions (signal : String) (t : Nat) : List PAction :=
  [.registerCloseListener, .setExpectingExit, .kill signal, .armTimer t]

/-- The `stop` timeout timer handler: it only rejects. -/
def stopTimerActions (rep : String) (t : Nat) : List PAction :=
  [.rejectMsg (stopTimeoutMsg rep t)]

/-- The `close` listener installed by `stop`: it only resolves. -/
def stopCloseActions : List PAction := [.resolveOk]

/-- The `start` timeout timer handler: it only rejects. -/
def startTimerActions (rep : String) (t : Nat) : List PAction :=
  [.rejectMsg (startTimeoutMsg rep t)]

/-- Outcome of a `stop` call on a running process, as a race between the OS
`close` notification and the timer: the settled result together with the full
ordered action trace. -/
def stopOutcome (rep : String) (signal : String) (t : Nat)
    (closeWithinTimeout : Bool) : Except String Unit × List PAction :=
  ((if closeWithinTimeout then .ok () else .error (stopTimeoutMsg rep t)),
    stopBodyActions signal t ++
      (if closeWithinTimeout then stopCloseActions else stopTimerActions rep t))

/-! ## One-shot `exec` (`lib/exec.ts`) -/

/-- The `exec` options that affect the modelled behavior, after merging with
the defaults. -/
structure ExecOpts where
  timeout : Option Nat
  killSignal : String
  ignoreOutput : Bool
  isBuffer : Bool
  maxStdoutBufferSize : Nat
  maxStderrBufferSize : Nat
  deriving Repr, DecidableEq

/-- The defaults `exec` merges the caller's options into. -/
def defaultExecOpts : ExecOpts :=
  { timeout := none
    killSignal := "SIGTERM"
    ignoreOutput := false
    isBuffer := false
    maxStdoutBufferSize := MAX_BUFFER_SIZE
    maxStderrBufferSize := MAX_BUFFER_SIZE }

/-- The value `exec` resolves with (output modelled at the byte level; the
`isBuffer` flag only selects between the raw bytes and their decoded form). -/
structure ExecResultB where
  stdout : List Nat
  stderr : List Nat
  code : Option Int
  deriving Repr, DecidableEq

/-- The error object `exec` rejects with: the message plus the attached
`{stdout, stderr, code}` fields. -/
structure ExecErrorB where
  message : String
  stdout : List Nat
  stderr : List Nat
  code : Option Int
  deriving Repr, DecidableEq

/-- How a JS template literal renders an `Option Int` exit code. -/
def codeToString : Option Int → String
  | none => "null"
  | some c => toString c

/-- Message of the non-zero-exit rejection of `exec`. -/
def execExitMsg (rep : String) (code : Option Int) : String :=
  "Command '" ++ rep ++ "' exited with code " ++ codeToString code

/-- Message of the timeout rejection of `exec`. -/
def execTimeoutMsg (rep : String) (t : Nat) : String :=
  "Command '" ++ rep ++ "' timed out after " ++ toString t ++ "ms"

/-- The `close` handler of `exec`: resolve with the collected output on exit
code 0, reject with an error carrying the collected output otherwise. -/
def closeOutcome (rep : String) (outB errB : CircularBuffer)
    (code : Option Int) : Except ExecErrorB ExecResultB :=
  if code = some 0 then .ok { stdout := outB.value, stderr := errB.value, code := code }
  else .error { message := execExitMsg rep code
                stdout := outB.value
                stderr := errB.value
                code := code }

/-- The error built by the timeout handler of `exec`. -/
def timeoutOutcome (rep : String) (t : Nat) (outB errB : CircularBuffer) :
    ExecErrorB :=
  { message := execTimeoutMsg rep t
    stdout := outB.value
    stderr := errB.value
    code := none }

/-- The stream `data` handler of `exec`: accumulate the chunk unless
`ignoreOutput` was requested (in which case the handler is a no-op). -/
def onData (ignoreOutput : Bool) (b : CircularBuffer) (chunk : List Nat) :
    CircularBuffer :=
  if ignoreOutput then b else b.add chunk

/-- Mutable state of one `exec` run: the two accumulation buffers, the
settled outcome of the promise (first settlement wins), the signals sent to
the child, and whether the timeout timer is still armed. -/
structure ExecState where
  stdoutBuf : CircularBuffer
  stderrBuf : CircularBuffer
  settled : Option (Except ExecErrorB ExecResultB)
  kills : List String
  timerArmed : Bool
  deriving Repr

/-- State of `exec` right after spawning: empty buffers, pending promise, no
signal sent, timer armed exactly when a timeout was configured. -/
def initExecState (opts : ExecOpts) : ExecState :=
  { stdoutBuf := CircularBuffer.mk0 opts.maxStdoutBufferSize
    stderrBuf := CircularBuffer.mk0 opts.maxStderrBufferSize
    settled := none
    kills := []
    timerArmed := opts.timeout.isSome }

/-- The events delivered to `exec`'s handlers by the event loop, in order. -/
inductive ExecEvent
  | dataOut (chunk : List Nat)
  | dataErr (chunk : List Nat)
  | close (code : Option Int)
  | timerFire
  deriving Repr, DecidableEq

/-- One event-loop dispatch of an `exec` handler. -/
def execStep (rep : String) (opts : ExecOpts) (st : ExecState)
    (ev : ExecEvent) : ExecState :=
  match ev with
  | .dataOut chunk =>
    { st with stdoutBuf := onData opts.ignoreOutput st.stdoutBuf chunk }
  | .dataErr chunk =>
    { st with stderrBuf := onData opts.ignoreOutput st.stderrBuf chunk }
  | .close code =>
    let st := { st with timerArmed := false }
    if st.settled.isSome then st
    else { st with settled := some (closeOutcome rep st.stdoutBuf st.stderrBuf code) }
  | .timerFire =>
    if !st.timerArmed then st
    else if st.settled.isSome then st
    else
      { st with
        settled := some (.error (timeoutOutcome rep (opts.timeout.getD 0)
          st.stdoutBuf st.stderrBuf))
        kills := st.kills ++ [opts.killSignal]
        timerArmed := false }

/-- Run `exec` against a full sequence of delivered events. -/
def runExec (rep : String) (opts : ExecOpts) (events : List ExecEvent) :
    ExecState :=
  events.foldl (execStep rep opts) (initExecState opts)

/-- The settled outcome (if any) carries empty stdout and stderr fields. -/
def settledOutputsEmpty : Option (Except ExecErrorB ExecResultB) → Prop
  | none => True
  | some (.ok r) => r.stdout = [] ∧ r.stderr = []
  | some (.error e) => e.stdout = [] ∧ e.stderr = []

/-! ## `SubProcess` constructor validation (`lib/subprocess.ts`) -/

/-- A model of the JS runtime values a caller can pass for `cmd` / `args`. -/
inductive JsVal
  | str (s : String)
  | num (n : Int)
  | boolV (b : Bool)
  | nullV
  | undefinedV
  | arr (len : Nat)
  deriving Repr, DecidableEq

/-- JS falsiness of the modelled values (`!cmd`). -/
def jsFalsy : JsVal → Bool
  | .str s => s = ""
  | .num n => n = 0
  | .boolV b => !b
  | .nullV => true
  | .undefinedV => true
  | .arr _ => false

/-- `_.isString`. -/
def jsIsString : JsVal → Bool
  | .str _ => true
  | _ => false

/-- `_.isArray`. -/
def jsIsArray : JsVal → Bool
  | .arr _ => true
  | _ => false

/-- The `SubProcess` constructor: validate `cmd` and `args`, then initialise
the lifecycle state with no handle and `expectingExit = false`.  No process is
spawned here (spawning happens only in `start`). -/
def subProcessNew (cmd args : JsVal) : Except String SubProcessState :=
  if jsFalsy cmd then .error "Command is required"
  else if !jsIsString cmd then .error "Command must be a string"
  else if !jsIsArray args then .error "Args must be an array"
  else .ok { proc := false, expectingExit := false }

/-! ## Theorems -/

/-- Claim C1: every termination notification emits the generic `exit` event
strictly before exactly one classified event — `stop` when `expectingExit` was
true, `end` when it was false and the code equals 0, `die` when it was false
and the code is nonzero or null — and afterwards the process handle is cleared
and `expectingExit` is reset to false regardless of the branch. -/
theorem claim_C1_exit_classification (st : SubProcessState) (code : Option Int)
    (signal : Option String) :
    (handleExit st code signal).1
      = [SubEvent.exitEv code signal, classify st.expectingExit code signal]
    ∧ isClassified (SubEvent.exitEv code signal) = false
    ∧ isClassified (classify st.expectingExit code signal) = true
    ∧ classify true code signal = SubEvent.stopEv code signal
    ∧ classify false code signal
        = (if code = some 0 then SubEvent.endEv code signal
           else SubEvent.dieEv code signal)
    ∧ (handleExit st code signal).2.proc = false
    ∧ (handleExit st code signal).2.expectingExit = false := by
  refine ⟨rfl, rfl, ?_, ?_, ?_, rfl, rfl⟩
  · cases h : st.expectingExit <;> by_cases hc : code = some 0 <;>
      simp [classify, isClassified, hc]
  · simp [classify]
  · simp [classify]

/-- Claim C10: constructing a `SubProcess` with a falsy command, a non-string
command, or a non-array args value fails synchronously with the corresponding
message, before any process is spawned; a successfully constructed instance
has no handle (`isRunning` is false) and `expectingExit` false. -/
theorem claim_C10_constructor_validation (cmd args : JsVal) :
    (jsFalsy cmd = true → subProcessNew cmd args = .error "Command is required")
    ∧ (jsFalsy cmd = false → jsIsString cmd = false →
        subProcessNew cmd args = .error "Command must be a string")
    ∧ (jsFalsy cmd = false → jsIsString cmd = true → jsIsArray args = false →
        subProcessNew cmd args = .error "Args must be an array")
    ∧ (jsFalsy cmd = false → jsIsString cmd = true → jsIsArray args = true →
        subProcessNew cmd args = .ok { proc := false, expectingExit := false }
        ∧ SubProcessState.isRunning { proc := false, expectingExit := false } = false) := by
  refine ⟨?_, ?_, ?_, ?_⟩
  · intro h1; simp [subProcessNew, h1]
  · intro h1 h2; simp [subProcessNew, h1, h2]
  · intro h1 h2 h3; simp [subProcessNew, h1, h2, h3]
  · intro h1 h2 h3
    exact ⟨by simp [subProcessNew, h1, h2, h3], rfl⟩

/-- Witness for C10, at the concrete inputs `""`, `5`, `("ls", 3)` and
`("ls", [])`. -/
theorem claim_C10_constructor_validation_witness :
    subProcessNew (JsVal.str "") (JsVal.arr 0) = .error "Command is required"
    ∧ subProcessNew (JsVal.num 5) (JsVal.arr 0) = .error "Command must be a string"
    ∧ subProcessNew (JsVal.str "ls") (JsVal.num 3) = .error "Args must be an array"
    ∧ subProcessNew (JsVal.str "ls") (JsVal.arr 0)
        = .ok { proc := false, expectingExit := false } :=
  ⟨(claim_C10_constructor_validation (JsVal.str "") (JsVal.arr 0)).1 (by decide),
   (claim_C10_constructor_validation (JsVal.num 5) (JsVal.arr 0)).2.1
     (by decide) (by decide),
   (claim_C10_constructor_validation (JsVal.str "ls") (JsVal.num 3)).2.2.1
     (by decide) (by decide) (by decide),
   ((claim_C10_constructor_validation (JsVal.str "ls") (JsVal.arr 0)).2.2.2
     (by decide) (by decide) (by decide)).1⟩

/-- Counterexample to claim C7 as stated: with the default allowed codes
`[0]`, a null exit code (signal-killed process) makes `join` RESOLVE with
`null` — the `code !== null &&` guard in `SubProcess.join` lets every null
code through — whereas the claim asserts a null code is compared against the
allowed list and rejects unless explicitly included. -/
theorem claim_C7_join_counterexample :
    joinCall true "ls" [0] none = .ok none := rfl

/-- Claim C7 (amended): `join` throws the not-running error whenever no
handle is present; otherwise it resolves with the exit code when the code is
null or a member of `allowedExitCodes`, and rejects with an error carrying the
actual code only for a non-null code outside the allowed list. -/
theorem claim_C7_join (rep : String) (allowed : List Int) (c : Int)
    (code : Option Int) :
    joinCall false rep allowed code = .error (joinNotRunningMsg rep)
    ∧ joinCall true rep allowed none = .ok none
    ∧ (allowed.contains c = true →
        joinCall true rep allowed (some c) = .ok (some c))
    ∧ (allowed.contains c = false →
        joinCall true rep allowed (some c) = .error (joinExitMsg rep c)) := by
  refine ⟨rfl, rfl, ?_, ?_⟩ <;> intro h <;> simp at h <;>
    simp [joinCall, joinOnExit, h]

/-- Witness for C7 (amended), at `rep = "ls"`, `allowed = [0]`, codes
`0`, `3` and not-running. -/
theorem claim_C7_join_witness :
    joinCall false "ls" [0] (some 0) = .error (joinNotRunningMsg "ls")
    ∧ joinCall true "ls" [0] (some 0) = .ok (some 0)
    ∧ joinCall true "ls" [0] (some 3) = .error (joinExitMsg "ls" 3) :=
  ⟨(claim_C7_join "ls" [0] 0 (some 0)).1,
   (claim_C7_join "ls" [0] 0 (some 0)).2.2.1 (by decide),
   (claim_C7_join "ls" [0] 3 (some 3)).2.2.2 (by decide)⟩

/-- Claim C8: a timed-out `start` and a timed-out `stop` both reject with an
error naming the command and the duration; neither timeout handler sends any
signal (the child is left running).  In `stop`, the requested signal is the
single signal sent and is sent before the timer is armed; `stop` resolves
exactly when the OS reports the process closed within the timeout. -/
theorem claim_C8_timeouts (rep signal : String) (t : Nat)
    (closeWithinTimeout : Bool) :
    (stopOutcome rep signal t closeWithinTimeout).2.filter isKill
        = [PAction.kill signal]
    ∧ (stopOutcome rep signal t false).1 = .error (stopTimeoutMsg rep t)
    ∧ (stopOutcome rep signal t true).1 = .ok ()
    ∧ ((stopOutcome rep signal t closeWithinTimeout).1 = .ok ()
        ↔ closeWithinTimeout = true)
    ∧ stopBodyActions signal t
        = [.registerCloseListener, .setExpectingExit, .kill signal, .armTimer t]
    ∧ (stopTimerActions rep t).filter isKill = []
    ∧ (startTimerActions rep t).filter isKill = []
    ∧ stopTimerActions rep t = [.rejectMsg (stopTimeoutMsg rep t)]
    ∧ startTimerActions rep t = [.rejectMsg (startTimeoutMsg rep t)]
    ∧ stopTimeoutMsg rep t
        = "Process didn't end after " ++ toString t ++ "ms (cmd: '" ++ rep ++ "')"
    ∧ startTimeoutMsg rep t
        = "The process did not start within " ++ toString t
            ++ "ms (cmd: '" ++ rep ++ "')" := by
  cases closeWithinTimeout <;>
    simp [stopOutcome, stopBodyActions, stopTimerActions, startTimerActions,
      stopCloseActions, isKill, stopTimeoutMsg, startTimeoutMsg, List.filter]

/-- Claim C4: the `close` handler of `exec` resolves with
`{stdout, stderr, code: 0}` exactly when the child closes with exit code 0 and
otherwise rejects with an error carrying the collected output and code; the
timeout handler, firing while the promise is pending, rejects with an error
carrying the output collected so far, a null code and a message naming the
quoted command and the duration, and sends the kill signal to the child. -/
theorem claim_C4_exec_outcomes (rep : String) (opts : ExecOpts)
    (outB errB : CircularBuffer) (code : Option Int) (st : ExecState) :
    (closeOutcome rep outB errB code
        = .ok { stdout := outB.value, stderr := errB.value, code := some 0 }
      ↔ code = some 0)
    ∧ (code ≠ some 0 →
        closeOutcome rep outB errB code
          = .error { message := execExitMsg rep code
                     stdout := outB.value
                     stderr := errB.value
                     code := code })
    ∧ (st.settled = none → st.timerArmed = true →
        execStep rep opts st .timerFire
          = { st with
              settled := some (.error
                { message := execTimeoutMsg rep (opts.timeout.getD 0)
                  stdout := st.stdoutBuf.value
                  stderr := st.stderrBuf.value
                  code := none })
              kills := st.kills ++ [opts.killSignal]
              timerArmed := false })
    ∧ execTimeoutMsg rep (opts.timeout.getD 0)
        = "Command '" ++ rep ++ "' timed out after "
            ++ toString (opts.timeout.getD 0) ++ "ms" := by
  refine ⟨?_, ?_, ?_, rfl⟩
  · constructor
    · intro h
      by_cases hc : code = some 0
      · exact hc
      · simp [closeOutcome, hc] at h
    · intro h; simp [closeOutcome, h]
  · intro h; simp [closeOutcome, h]
  · intro h1 h2; simp [execStep, h1, h2, timeoutOutcome]

/-- Witness for C4: a non-zero close and a timer expiry on concrete states. -/
theorem claim_C4_exec_outcomes_witness :
    closeOutcome "ls" (CircularBuffer.mk0 4) (CircularBuffer.mk0 4) (some 2)
      = .error { message := execExitMsg "ls" (some 2)
                 stdout := (CircularBuffer.mk0 4).value
                 stderr := (CircularBuffer.mk0 4).value
                 code := some 2 }
    ∧ execStep "sleep 10" { defaultExecOpts with timeout := some 500 }
        (initExecState { defaultExecOpts with timeout := some 500 }) .timerFire
      = { initExecState { defaultExecOpts with timeout := some 500 } with
          settled := some (.error
            { message := execTimeoutMsg "sleep 10" 500
              stdout := []
              stderr := []
              code := none })
          kills := ["SIGTERM"]
          timerArmed := false } :=
  ⟨(claim_C4_exec_outcomes "ls" defaultExecOpts (CircularBuffer.mk0 4)
      (CircularBuffer.mk0 4) (some 2) (initExecState defaultExecOpts)).2.1
      (by decide),
   (claim_C4_exec_outcomes "sleep 10"
      { defaultExecOpts with timeout := some 500 } (CircularBuffer.mk0 4)
      (CircularBuffer.mk0 4) (some 2)
      (initExecState { defaultExecOpts with timeout := some 500 })).2.2.1
      rfl rfl⟩

/-- Invariant behind C9: with `ignoreOutput` set, one handler dispatch of
`exec` preserves empty accumulation buffers and a settled outcome with empty
output fields. -/
theorem execStep_ignore_invariant (rep : String) (opts : ExecOpts)
    (hIg : opts.ignoreOutput = true) (ev : ExecEvent) (st : ExecState)
    (h1 : st.stdoutBuf.value = []) (h2 : st.stderrBuf.value = [])
    (h3 : settledOutputsEmpty st.settled) :
    (execStep rep opts st ev).stdoutBuf.value = []
    ∧ (execStep rep opts st ev).stderrBuf.value = []
    ∧ settledOutputsEmpty (execStep rep opts st ev).settled := by
  cases ev with
  | dataOut chunk => simpa [execStep, onData, hIg, h1] using ⟨h2, h3⟩
  | dataErr chunk => simpa [execStep, onData, hIg, h2] using ⟨h1, h3⟩
  | close code =>
    by_cases hs : st.settled.isSome
    · simpa [execStep, hs] using ⟨h1, h2, h3⟩
    · by_cases hc : code = some 0 <;>
        simp [execStep, hs, closeOutcome, hc, settledOutputsEmpty, h1, h2]
  | timerFire =>
    by_cases ha : st.timerArmed
    · by_cases hs : st.settled.isSome
      · simpa [execStep, ha, hs] using ⟨h1, h2, h3⟩
      · simp [execStep, ha, hs, timeoutOutcome, settledOutputsEmpty, h1, h2]
    · simpa [execStep, ha] using ⟨h1, h2, h3⟩

/-- Folded version of the C9 invariant over a whole event sequence. -/
theorem execFold_ignore_invariant (rep : String) (opts : ExecOpts)
    (hIg : opts.ignoreOutput = true) (evs : List ExecEvent) :
    ∀ st : ExecState, st.stdoutBuf.value = [] → st.stderrBuf.value = [] →
      settledOutputsEmpty st.settled →
      (evs.foldl (execStep rep opts) st).stdoutBuf.value = []
      ∧ (evs.foldl (execStep rep opts) st).stderrBuf.value = []
      ∧ settledOutputsEmpty (evs.foldl (execStep rep opts) st).settled := by
  induction evs with
  | nil => intro st h1 h2 h3; exact ⟨h1, h2, h3⟩
  | cons ev evs ih =>
    intro st h1 h2 h3
    obtain ⟨g1, g2, g3⟩ := execStep_ignore_invariant rep opts hIg ev st h1 h2 h3
    exact ih (execStep rep opts st ev) g1 g2 g3

/-- Claim C9: with `ignoreOutput` set to true, no stream data is ever
accumulated, so the output fields of the resolved result — and of any
rejection error — are always empty, regardless of what the child writes. -/
theorem claim_C9_ignore_output (rep : String) (opts : ExecOpts)
    (evs : List ExecEvent) (h : opts.ignoreOutput = true) :
    (runExec rep opts evs).stdoutBuf.value = []
    ∧ (runExec rep opts evs).stderrBuf.value = []
    ∧ settledOutputsEmpty (runExec rep opts evs).settled := by
  exact execFold_ignore_invariant rep opts h evs (initExecState opts) rfl rfl
    trivial

/-- Witness for C9: a run that writes on both streams and closes with code 0
keeps every output field empty. -/
theorem claim_C9_ignore_output_witness :
    ({ defaultExecOpts with ignoreOutput := true } : ExecOpts).ignoreOutput = true
    ∧ (runExec "cat" { defaultExecOpts with ignoreOutput := true }
        [ExecEvent.dataOut [1, 2, 3], ExecEvent.dataErr [4],
         ExecEvent.close (some 0)]).stdoutBuf.value = []
    ∧ (runExec "cat" { defaultExecOpts with ignoreOutput := true }
        [ExecEvent.dataOut [1, 2, 3], ExecEvent.dataErr [4],
         ExecEvent.close (some 0)]).stderrBuf.value = []
    ∧ settledOutputsEmpty (runExec "cat"
        { defaultExecOpts with ignoreOutput := true }
        [ExecEvent.dataOut [1, 2, 3], ExecEvent.dataErr [4],
         ExecEvent.close (some 0)]).settled :=
  ⟨rfl,
   (claim_C9_ignore_output "cat" { defaultExecOpts with ignoreOutput := true }
     [ExecEvent.dataOut [1, 2, 3], ExecEvent.dataErr [4],
      ExecEvent.close (some 0)] rfl).1,
   (claim_C9_ignore_output "cat" { defaultExecOpts with ignoreOutput := true }
     [ExecEvent.dataOut [1, 2, 3], ExecEvent.dataErr [4],
      ExecEvent.close (some 0)] rfl).2.1,
   (claim_C9_ignore_output "cat" { defaultExecOpts with ignoreOutput := true }
     [ExecEvent.dataOut [1, 2, 3], ExecEvent.dataErr [4],
      ExecEvent.close (some 0)] rfl).2.2⟩

theorem sumLen_cons (x : List Nat) (xs : List (List Nat)) :
    sumLen (x :: xs) = x.length + sumLen xs := by simp [sumLen]

theorem sumLen_append (a b : List (List Nat)) :
    sumLen (a ++ b) = sumLen a + sumLen b := by simp [sumLen]

theorem sumLen_take_drop (n : Nat) (bs : List (List Nat)) :
    sumLen (bs.take n) + sumLen (bs.drop n) = sumLen bs := by
  rw [sumLen, sumLen, sumLen, List.map_take, List.map_drop,
    List.sum_take_add_sum_drop]

theorem alignShift_spec (expected : Nat) (buf : List (List Nat)) :
    ∀ s₀ : Nat,
      ((alignShift buf expected s₀).2
          = s₀ + sumLen (buf.take (alignShift buf expected s₀).1))
      ∧ (alignShift buf expected s₀).1 ≤ buf.length
      ∧ (buf ≠ [] → (alignShift buf expected s₀).1 + 1 ≤ buf.length)
      ∧ (buf ≠ [] → (alignShift buf expected s₀).2 < expected →
          (alignShift buf expected s₀).1 + 1 = buf.length) := by
  induction buf with
  | nil => intro s₀; simp [alignShift, sumLen]
  | cons x xs ih =>
    intro s₀
    cases xs with
    | nil => simp [alignShift, sumLen]
    | cons y rest =>
      by_cases hle : s₀ ≤ expected
      · have h := ih (s₀ + x.length)
        have h1 := h.1
        have h2 := h.2.1
        have h3 := h.2.2.1 (by simp)
        have h4 := h.2.2.2 (by simp)
        have hx : alignShift (x :: y :: rest) expected s₀
            = ((alignShift (y :: rest) expected (s₀ + x.length)).1 + 1,
               (alignShift (y :: rest) expected (s₀ + x.length)).2) := by
          simp [alignShift, hle]
        rw [hx]
        refine ⟨?_, ?_, ?_, ?_⟩
        · rw [List.take_succ_cons, sumLen_cons]
          omega
        · simp only [List.length_cons] at h2 ⊢
          omega
        · intro _
          simp only [List.length_cons] at h3 ⊢
          omega
        · intro _ hlt
          have h5 := h4 hlt
          simp only [List.length_cons] at h5 ⊢
          omega
      · have hx : alignShift (x :: y :: rest) expected s₀ = (0, s₀) := by
          simp [alignShift, hle]
        rw [hx]
        simp [sumLen]
        omega

theorem CircularBuffer.align_spec (c : CircularBuffer) (hwf : c.WF) :
    c.align.WF ∧ c.align.size ≤ c.maxSize ∧ c.align.maxSize = c.maxSize := by
  have hwf' : c.size = sumLen c.buf := hwf
  by_cases h : c.size ≤ c.maxSize
  · have heq : c.align = c := by simp [CircularBuffer.align, h]
    rw [heq]
    exact ⟨hwf, h, rfl⟩
  · have hlt : c.maxSize < c.size := by omega
    have ht : c.maxSize * 15 / 100 ≤ c.maxSize := by omega
    have hbne : c.buf ≠ [] := by
      intro hb
      rw [hb] at hwf'
      simp [sumLen] at hwf'
      omega
    obtain ⟨h1, -, -, h4⟩ :=
      alignShift_spec (c.size - c.maxSize + c.maxSize * 15 / 100) c.buf 0
    generalize hn : (alignShift c.buf
      (c.size - c.maxSize + c.maxSize * 15 / 100) 0).1 = n at h1 h4
    generalize hs : (alignShift c.buf
      (c.size - c.maxSize + c.maxSize * 15 / 100) 0).2 = s at h1 h4
    have htd := sumLen_take_drop n c.buf
    have hs_le : s ≤ c.size := by omega
    have hdrop : sumLen (c.buf.drop n) = c.size - s := by omega
    by_cases hsl : s < c.size - c.maxSize + c.maxSize * 15 / 100
    · have hlen : n + 1 = c.buf.length := h4 hbne hsl
      have hlen1 : (c.buf.drop n).length = 1 := by
        rw [List.length_drop]; omega
      obtain ⟨x, hx⟩ := List.length_eq_one.mp hlen1
      have hxlen : x.length = c.size - s := by
        rw [hx] at hdrop
        simp [sumLen] at hdrop
        omega
      have halign : c.align =
          { c with
            buf := [x.drop (c.size - c.maxSize + c.maxSize * 15 / 100 - s)]
            size := (c.size - s)
              - (c.size - c.maxSize + c.maxSize * 15 / 100 - s) } := by
        simp only [CircularBuffer.align, h, if_false]
        rw [hn, hs, hx]
        simp [hsl]
      rw [halign]
      refine ⟨?_, ?_, rfl⟩
      · show (c.size - s) - (c.size - c.maxSize + c.maxSize * 15 / 100 - s)
          = sumLen [x.drop (c.size - c.maxSize + c.maxSize * 15 / 100 - s)]
        simp [sumLen]
        omega
      · show (c.size - s) - (c.size - c.maxSize + c.maxSize * 15 / 100 - s)
          ≤ c.maxSize
        omega
    · have halign : c.align = { c with buf := c.buf.drop n, size := c.size - s } := by
        simp only [CircularBuffer.align, h, if_false]
        rw [hn, hs]
        simp [hsl]
      rw [halign]
      refine ⟨?_, ?_, rfl⟩
      · show c.size - s = sumLen (c.buf.drop n)
        omega
      · show c.size - s ≤ c.maxSize
        omega

theorem CircularBuffer.add_spec (c : CircularBuffer) (item : List Nat)
    (hwf : c.WF) :
    (c.add item).WF ∧ (c.add item).size ≤ c.maxSize
    ∧ (c.add item).maxSize = c.maxSize := by
  have hwf' : c.size = sumLen c.buf := hwf
  have hwf2 : CircularBuffer.WF
      { c with buf := c.buf ++ [item], size := c.size + item.length } := by
    show c.size + item.length = sumLen (c.buf ++ [item])
    have hi : sumLen [item] = item.length := by simp [sumLen]
    rw [sumLen_append]
    omega
  have h := CircularBuffer.align_spec _ hwf2
  exact ⟨h.1, h.2.1, h.2.2⟩

theorem CircularBuffer.foldl_add_spec (chunks : List (List Nat)) :
    ∀ c : CircularBuffer, c.WF → c.size ≤ c.maxSize →
      (chunks.foldl CircularBuffer.add c).WF
      ∧ (chunks.foldl CircularBuffer.add c).size
          ≤ (chunks.foldl CircularBuffer.add c).maxSize
      ∧ (chunks.foldl CircularBuffer.add c).maxSize = c.maxSize := by
  induction chunks with
  | nil => intro c h1 h2; exact ⟨h1, h2, rfl⟩
  | cons ch chunks ih =>
    intro c h1 h2
    have ha := CircularBuffer.add_spec c ch h1
    have hs : (c.add ch).size ≤ (c.add ch).maxSize := by
      rw [ha.2.2]; exact ha.2.1
    have h := ih (c.add ch) ha.1 hs
    exact ⟨h.1, h.2.1, h.2.2.trans ha.2.2⟩

/-- Claim C2: for every capacity and every sequence of appended chunks,
after each `add` the maintained total equals the sum of the retained chunk
lengths, and the total is at most the capacity OR the buffer holds exactly
one chunk larger than the capacity.  (The embedding in fact establishes the
left disjunct unconditionally: even a lone oversized chunk is front-sliced
back under the cap by `_align`.) -/
theorem claim_C2_buffer_cap_invariant (m : Nat) (chunks : List (List Nat)) :
    (CircularBuffer.addAll m chunks).size
        = sumLen (CircularBuffer.addAll m chunks).buf
    ∧ ((CircularBuffer.addAll m chunks).size ≤ m
       ∨ ((CircularBuffer.addAll m chunks).count = 1
          ∧ ∃ ch, (CircularBuffer.addAll m chunks).buf = [ch] ∧ m < ch.length)) := by
  have h := CircularBuffer.foldl_add_spec chunks (CircularBuffer.mk0 m) rfl
    (Nat.zero_le m)
  refine ⟨h.1, Or.inl ?_⟩
  have h21 := h.2.1
  have h22 : (List.foldl CircularBuffer.add (CircularBuffer.mk0 m) chunks).maxSize
      = m := h.2.2
  show (List.foldl CircularBuffer.add (CircularBuffer.mk0 m) chunks).size ≤ m
  omega

/-- Claim C3: the eviction pass behaves as described on the concrete
rotation scenario — capacity 100, appending 100 bytes of `x` (0x78) and then
110 bytes of `y` (0x79) leaves `size() == 85` and `value()` equal to the last
85 `y` bytes, held in a single chunk. -/
theorem claim_C3_eviction_concrete :
    (CircularBuffer.addAll 100 [List.replicate 100 120, List.replicate 110 121]).size = 85
    ∧ (CircularBuffer.addAll 100 [List.replicate 100 120, List.replicate 110 121]).value
        = List.replicate 85 121
    ∧ (CircularBuffer.addAll 100 [List.replicate 100 120, List.replicate 110 121]).count = 1
    ∧ alignShift [List.replicate 100 120, List.replicate 110 121] 125 0 = (1, 100)
    ∧ (CircularBuffer.addAll 100 [List.replicate 100 120, List.replicate 110 121]).value
        = (List.replicate 110 121).drop 25 := by
  decide

theorem splitNl_cons (c : Char) (rest q : List Char) (qs : List (List Char))
    (h : splitNl rest = q :: qs) :
    splitNl (c :: rest) = if c = nlChar then [] :: q :: qs else (c :: q) :: qs := by
  simp only [splitNl]
  rw [h]

theorem splitNl_ne_nil (l : List Char) : splitNl l ≠ [] := by
  induction l with
  | nil => simp [splitNl]
  | cons c rest ih =>
    cases h : splitNl rest with
    | nil => exact absurd h ih
    | cons q qs =>
      rw [splitNl_cons c rest q qs h]
      split <;> simp

theorem splitNl_of_noNl (l : List Char) (h : noNl l) : splitNl l = [l] := by
  induction l with
  | nil => rfl
  | cons c rest ih =>
    have hc : c ≠ nlChar := fun hc => h (hc ▸ List.mem_cons_self c rest)
    have hrest : noNl rest := fun hm => h (List.mem_cons_of_mem c hm)
    rw [splitNl_cons c rest rest [] (ih hrest), if_neg hc]

theorem splitNl_singleton (l : List Char) :
    ∀ p, splitNl l = [p] → p = l ∧ noNl l := by
  induction l with
  | nil =>
    intro p h
    simp [splitNl] at h
    subst h
    exact ⟨rfl, by simp [noNl]⟩
  | cons c rest ih =>
    intro p h
    cases hr : splitNl rest with
    | nil => exact absurd hr (splitNl_ne_nil rest)
    | cons q qs =>
      rw [splitNl_cons c rest q qs hr] at h
      by_cases hc : c = nlChar
      · simp [hc] at h
      · rw [if_neg hc] at h
        have hp : c :: q = p := (List.cons_eq_cons.mp h).1
        have hqs : qs = [] := (List.cons_eq_cons.mp h).2
        subst hqs
        obtain ⟨hq, hnl⟩ := ih q hr
        subst hq
        refine ⟨hp.symm, ?_⟩
        intro hm
        rcases List.mem_cons.mp hm with h2 | h2
        · exact hc h2.symm
        · exact hnl h2

theorem splitNl_pieces_noNl (l : List Char) :
    ∀ p ∈ splitNl l, noNl p := by
  induction l with
  | nil =>
    intro p hp
    simp [splitNl] at hp
    simp [hp, noNl]
  | cons c rest ih =>
    intro p hp
    cases hr : splitNl rest with
    | nil => exact absurd hr (splitNl_ne_nil rest)
    | cons q qs =>
      rw [splitNl_cons c rest q qs hr] at hp
      by_cases hc : c = nlChar
      · rw [if_pos hc] at hp
        rcases List.mem_cons.mp hp with h | h
        · simp [h, noNl]
        · exact ih p (hr ▸ h)
      · rw [if_neg hc] at hp
        rcases List.mem_cons.mp hp with h | h
        · have hq : noNl q := ih q (hr ▸ List.mem_cons_self q qs)
          subst h
          intro hm
          rcases List.mem_cons.mp hm with h2 | h2
          · exact hc h2.symm
          · exact hq h2
        · exact ih p (hr ▸ List.mem_cons_of_mem q h)

theorem glue_ne_nil (xs ys : List (List Char)) (hx : xs ≠ []) :
    glue xs ys ≠ [] := by
  cases xs with
  | nil => exact absurd rfl hx
  | cons x xs' =>
    cases xs' with
    | nil => cases ys <;> simp [glue]
    | cons x' xs'' => simp [glue]

theorem glue_cons₂ (x x' : List Char) (xs ys : List (List Char)) :
    glue (x :: x' :: xs) ys = x :: glue (x' :: xs) ys := rfl

theorem splitNl_append (a b : List Char) :
    splitNl (a ++ b) = glue (splitNl a) (splitNl b) := by
  induction a with
  | nil =>
    cases h : splitNl b with
    | nil => exact absurd h (splitNl_ne_nil b)
    | cons p ps => simp [splitNl, glue, h]
  | cons c a ih =>
    obtain ⟨g, gs, hg⟩ : ∃ g gs, glue (splitNl a) (splitNl b) = g :: gs := by
      cases h : glue (splitNl a) (splitNl b) with
      | nil => exact absurd h (glue_ne_nil _ _ (splitNl_ne_nil a))
      | cons g gs => exact ⟨g, gs, rfl⟩
    have hl : splitNl (c :: a ++ b)
        = if c = nlChar then [] :: g :: gs else (c :: g) :: gs := by
      rw [List.cons_append]
      exact splitNl_cons c (a ++ b) g gs (ih.trans hg)
    cases ha : splitNl a with
    | nil => exact absurd ha (splitNl_ne_nil a)
    | cons p ps =>
      have hsc : splitNl (c :: a)
          = if c = nlChar then [] :: p :: ps else (c :: p) :: ps :=
        splitNl_cons c a p ps ha
      by_cases hc : c = nlChar
      · rw [hl, hsc, if_pos hc, if_pos hc]
        rw [glue_cons₂, ← ha, hg]
      · rw [hl, hsc, if_neg hc, if_neg hc]
        cases ps with
        | nil =>
          cases hb : splitNl b with
          | nil => exact absurd hb (splitNl_ne_nil b)
          | cons q qs =>
            rw [ha, hb] at hg
            simp only [glue] at hg ⊢
            have h1 : g = p ++ q := (List.cons_eq_cons.mp hg).1.symm
            have h2 : gs = qs := (List.cons_eq_cons.mp hg).2.symm
            rw [h1, h2]
            simp
        | cons p' ps' =>
          rw [ha] at hg
          rw [glue_cons₂] at hg
          rw [glue_cons₂]
          have h1 : g = p := (List.cons_eq_cons.mp hg).1.symm
          have h2 : gs = glue (p' :: ps') (splitNl b) :=
            (List.cons_eq_cons.mp hg).2.symm
          rw [h1, h2]

theorem getLastD_irrel (y : List Char) (ys : List (List Char)) (d d' : List Char) :
    (y :: ys).getLastD d = (y :: ys).getLastD d' := by
  rw [List.getLastD_cons, List.getLastD_cons]

theorem getLastD_mem (l : List (List Char)) (d : List Char) (h : l ≠ []) :
    l.getLastD d ∈ l := by
  induction l generalizing d with
  | nil => exact absurd rfl h
  | cons x xs ih =>
    rw [List.getLastD_cons]
    cases xs with
    | nil => simp [List.getLastD]
    | cons x' xs' => exact List.mem_cons_of_mem x (ih x (by simp))

theorem glue_split (xs ys : List (List Char)) (hx : xs ≠ []) :
    glue xs ys = xs.dropLast ++ glue [xs.getLastD []] ys := by
  induction xs with
  | nil => exact absurd rfl hx
  | cons x xs' ih =>
    cases xs' with
    | nil => simp [List.getLastD]
    | cons x' xs'' =>
      have hgl : (x :: x' :: xs'').getLastD [] = (x' :: xs'').getLastD [] := by
        rw [List.getLastD_cons]
        exact getLastD_irrel x' xs'' x []
      rw [glue_cons₂, ih (by simp), hgl, List.dropLast_cons₂]
      simp

theorem glue_bounds (xs ys : List (List Char)) (M : Nat)
    (h : ∀ p ∈ glue xs ys, p.length ≤ M) : ∀ p ∈ xs, p.length ≤ M := by
  induction xs with
  | nil => simp
  | cons x xs' ih =>
    cases xs' with
    | nil =>
      intro p hp
      rw [List.mem_singleton] at hp
      subst hp
      cases ys with
      | nil => exact h p (by simp [glue])
      | cons y ys' =>
        have := h (p ++ y) (by simp [glue])
        rw [List.length_append] at this
        omega
    | cons x' xs'' =>
      intro p hp
      rcases List.mem_cons.mp hp with h1 | h1
      · subst h1
        exact h p (by rw [glue_cons₂]; exact List.mem_cons_self _ _)
      · exact ih
          (fun q hq => h q (by rw [glue_cons₂]; exact List.mem_cons_of_mem x hq))
          p h1

theorem getLastD_single (x d : List Char) :
    ([x] : List (List Char)).getLastD d = x := by
  rw [List.getLastD_cons]
  rfl

theorem processChunk_single (r c p : List Char) (h : splitNl c = [p]) :
    processChunk r c
      = (if MAX_LINE_PORTION_LENGTH
            < r.length + (cutSuffix p MAX_LINE_PORTION_LENGTH).length
         then ([], cutSuffix p MAX_LINE_PORTION_LENGTH)
         else ([], r ++ cutSuffix p MAX_LINE_PORTION_LENGTH)) := by
  unfold processChunk
  rw [h]

theorem processChunk_multi (r c p q : List Char) (ps : List (List Char))
    (h : splitNl c = p :: q :: ps) :
    processChunk r c = (((r ++ p) :: q :: ps).dropLast,
      cutSuffix ((q :: ps).getLastD []) MAX_LINE_PORTION_LENGTH) := by
  unfold processChunk
  rw [h]

theorem processChunk_spec (r c : List Char) (hr : noNl r)
    (hb : ∀ p ∈ splitNl (r ++ c), p.length ≤ MAX_LINE_PORTION_LENGTH) :
    processChunk r c
        = ((splitNl (r ++ c)).dropLast, (splitNl (r ++ c)).getLastD [])
    ∧ noNl ((splitNl (r ++ c)).getLastD []) := by
  have hrc : splitNl (r ++ c) = glue [r] (splitNl c) := by
    rw [splitNl_append, splitNl_of_noNl r hr]
  cases hc : splitNl c with
  | nil => exact absurd hc (splitNl_ne_nil c)
  | cons p ps =>
    cases ps with
    | nil =>
      have hcc := splitNl_singleton c p hc
      have hnoc : noNl c := hcc.2
      have hc2 : splitNl c = [c] := by rw [hc, hcc.1]
      have hone : splitNl (r ++ c) = [r ++ c] := by
        rw [hrc, hc2]
        simp [glue]
      have hlen : (r ++ c).length ≤ MAX_LINE_PORTION_LENGTH :=
        hb (r ++ c) (by rw [hone]; exact List.mem_singleton.mpr rfl)
      rw [List.length_append] at hlen
      have hcut : cutSuffix c MAX_LINE_PORTION_LENGTH = c := by
        rw [cutSuffix, if_neg (by omega)]
      have hproc : processChunk r c = ([], r ++ c) := by
        rw [processChunk_single r c c hc2, hcut, if_neg (by omega)]
      rw [hproc, hone, getLastD_single]
      constructor
      · simp
      · intro hm
        rcases List.mem_append.mp hm with h1 | h1
        · exact hr h1
        · exact hnoc h1
    | cons q qs =>
      have hsplit : splitNl (r ++ c) = (r ++ p) :: q :: qs := by
        rw [hrc, hc]
        rfl
      have hL : ((r ++ p) :: q :: qs).getLastD [] = (q :: qs).getLastD [] := by
        rw [List.getLastD_cons]
        exact getLastD_irrel q qs (r ++ p) []
      have hmem : (q :: qs).getLastD [] ∈ splitNl (r ++ c) := by
        rw [hsplit]
        exact List.mem_cons_of_mem _ (getLastD_mem (q :: qs) [] (by simp))
      have hlast_len := hb _ hmem
      have hcut : cutSuffix ((q :: qs).getLastD []) MAX_LINE_PORTION_LENGTH
          = (q :: qs).getLastD [] := by
        rw [cutSuffix, if_neg (by omega)]
      constructor
      · rw [processChunk_multi r c p q qs hc, hcut, hsplit, hL]
      · rw [hsplit, hL]
        exact splitNl_pieces_noNl (r ++ c) _ hmem

theorem dropLast_append_ne (A B : List (List Char)) (h : B ≠ []) :
    (A ++ B).dropLast = A ++ B.dropLast := by
  cases B with
  | nil => exact absurd rfl h
  | cons b B' => rw [List.dropLast_append_cons]

theorem getLastD_append_ne (A B : List (List Char)) (d : List Char)
    (h : B ≠ []) : (A ++ B).getLastD d = B.getLastD d := by
  induction A generalizing d with
  | nil => rfl
  | cons a A ih =>
    rw [List.cons_append, List.getLastD_cons]
    cases hA : A ++ B with
    | nil =>
      rcases List.append_eq_nil.mp hA with ⟨-, h2⟩
      exact absurd h2 h
    | cons x xs =>
      rw [← hA, ih a]
      cases B with
      | nil => exact absurd rfl h
      | cons b B' => exact getLastD_irrel b B' a d

theorem procAll_nil (r : List Char) : procAll r [] = ([], r) := rfl

theorem procAll_cons (r c : List Char) (cs : List (List Char)) :
    procAll r (c :: cs)
      = ((processChunk r c).1 ++ (procAll (processChunk r c).2 cs).1,
         (procAll (processChunk r c).2 cs).2) := rfl

theorem procAll_spec (cs : List (List Char)) :
    ∀ r : List Char, noNl r →
      (∀ p ∈ splitNl (r ++ cs.flatten), p.length ≤ MAX_LINE_PORTION_LENGTH) →
      procAll r cs = ((splitNl (r ++ cs.flatten)).dropLast,
        (splitNl (r ++ cs.flatten)).getLastD []) := by
  induction cs with
  | nil =>
    intro r hr _
    rw [procAll_nil, List.flatten_nil, List.append_nil, splitNl_of_noNl r hr,
      getLastD_single]
    simp
  | cons c cs ih =>
    intro r hr hb
    have hassoc : r ++ (c :: cs).flatten = (r ++ c) ++ cs.flatten := by
      rw [List.flatten_cons, List.append_assoc]
    rw [hassoc] at hb ⊢
    have hT : splitNl ((r ++ c) ++ cs.flatten)
        = glue (splitNl (r ++ c)) (splitNl cs.flatten) := splitNl_append _ _
    have hbc : ∀ p ∈ splitNl (r ++ c), p.length ≤ MAX_LINE_PORTION_LENGTH := by
      apply glue_bounds (splitNl (r ++ c)) (splitNl cs.flatten)
      rw [← hT]
      exact hb
    obtain ⟨hpc, hnores⟩ := processChunk_spec r c hr hbc
    have hS1 : splitNl ((splitNl (r ++ c)).getLastD [] ++ cs.flatten)
        = glue [(splitNl (r ++ c)).getLastD []] (splitNl cs.flatten) := by
      rw [splitNl_append, splitNl_of_noNl _ hnores]
    have hT2 : splitNl ((r ++ c) ++ cs.flatten)
        = (splitNl (r ++ c)).dropLast
          ++ splitNl ((splitNl (r ++ c)).getLastD [] ++ cs.flatten) := by
      rw [hT, glue_split _ _ (splitNl_ne_nil _), hS1]
    have hb1 : ∀ p ∈ splitNl ((splitNl (r ++ c)).getLastD [] ++ cs.flatten),
        p.length ≤ MAX_LINE_PORTION_LENGTH := by
      intro p hp
      apply hb
      rw [hT2]
      exact List.mem_append_right _ hp
    have hih := ih ((splitNl (r ++ c)).getLastD []) hnores hb1
    have hstep : procAll r (c :: cs)
        = ((splitNl (r ++ c)).dropLast
             ++ (procAll ((splitNl (r ++ c)).getLastD []) cs).1,
           (procAll ((splitNl (r ++ c)).getLastD []) cs).2) := by
      rw [procAll_cons, hpc]
    rw [hstep, hih, hT2,
      dropLast_append_ne _ _ (splitNl_ne_nil _),
      getLastD_append_ne _ _ _ (splitNl_ne_nil _)]

/-- Claim C5 (amended): feeding a byte stream through the per-stream
residue-based line reassembly yields the same ordered sequence of emitted
lines as splitting the fully concatenated stream at once, PROVIDED every
piece of the full split (each line, and the trailing partial line) is at most
`MAX_LINE_PORTION_LENGTH` characters long.  Without that bound the residue
cap breaks chunk-boundary invariance (see the counterexample). -/
theorem claim_C5_line_reassembly (chunks : List (List Char))
    (hb : ∀ p ∈ splitNl chunks.flatten, p.length ≤ MAX_LINE_PORTION_LENGTH) :
    emittedLines chunks = emittedLines [chunks.flatten] := by
  have hnil : noNl ([] : List Char) := by simp [noNl]
  have h1 := procAll_spec chunks [] hnil (by simpa using hb)
  have h2 := procAll_spec [chunks.flatten] [] hnil (by simpa using hb)
  unfold emittedLines
  rw [h1, h2]
  simp

theorem noNl_replicate (n : Nat) : noNl (List.replicate n 'a') := by
  intro hm
  have h := List.eq_of_mem_replicate hm
  exact absurd h (by decide)

theorem drop_one_replicate (n : Nat) (c : Char) :
    (List.replicate (n + 1) c).drop 1 = List.replicate n c := by
  rw [List.replicate_succ, List.drop_succ_cons, List.drop_zero]

theorem replicate_big_eq :
    List.replicate 65536 'a' = List.replicate (65535 + 1) 'a' := by norm_num

theorem cutSuffix_nil (n : Nat) : cutSuffix [] n = [] := by
  unfold cutSuffix
  rw [if_neg (by simp)]

theorem processChunk_nil_big :
    processChunk [] (List.replicate 65536 'a')
      = ([], List.replicate 65535 'a') := by
  have hs : splitNl (List.replicate 65536 'a') = [List.replicate 65536 'a'] :=
    splitNl_of_noNl _ (noNl_replicate _)
  rw [processChunk_single _ _ _ hs]
  have hcut : cutSuffix (List.replicate 65536 'a') MAX_LINE_PORTION_LENGTH
      = List.replicate 65535 'a' := by
    unfold cutSuffix
    rw [List.length_replicate]
    rw [if_pos (by norm_num [MAX_LINE_PORTION_LENGTH])]
    have h1 : 65536 - MAX_LINE_PORTION_LENGTH = 1 := by
      norm_num [MAX_LINE_PORTION_LENGTH]
    rw [h1, replicate_big_eq, drop_one_replicate]
  rw [hcut]
  rw [if_neg (by
    rw [List.length_nil, List.length_replicate]
    norm_num [MAX_LINE_PORTION_LENGTH])]
  rw [List.nil_append]

theorem processChunk_newline (r : List Char) :
    processChunk r [nlChar] = ([r], []) := by
  have hs : splitNl [nlChar] = [[], []] := by decide
  rw [processChunk_multi r [nlChar] [] [] [] hs]
  rw [getLastD_single, cutSuffix_nil, List.append_nil]
  rfl

/-- Counterexample to claim C5 as stated: a 65536-character line delivered as
one terminator-free chunk followed by the terminator emits only the last
65535 characters (the residue cap truncates the oldest character), whereas
the same bytes delivered as a single chunk emit the full 65536-character
line.  So chunk-boundary invariance fails for this explicit cutting. -/
theorem claim_C5_counterexample :
    emittedLines [List.replicate 65536 'a', [nlChar]]
      ≠ emittedLines [List.replicate 65536 'a' ++ [nlChar]] := by
  have h1 : emittedLines [List.replicate 65536 'a', [nlChar]]
      = [List.replicate 65535 'a'] := by
    unfold emittedLines
    rw [procAll_cons, processChunk_nil_big, procAll_cons, processChunk_newline,
      procAll_nil]
    rfl
  have h2 : emittedLines [List.replicate 65536 'a' ++ [nlChar]]
      = [List.replicate 65536 'a'] := by
    have hs : splitNl (List.replicate 65536 'a' ++ [nlChar])
        = [List.replicate 65536 'a', []] := by
      have hn : splitNl [nlChar] = [[], []] := by decide
      rw [splitNl_append, splitNl_of_noNl _ (noNl_replicate _), hn]
      rw [show glue [List.replicate 65536 'a'] [[], []]
            = (List.replicate 65536 'a' ++ []) :: [[]] from rfl]
      rw [List.append_nil]
    have s1 : processChunk [] (List.replicate 65536 'a' ++ [nlChar])
        = ([List.replicate 65536 'a'], []) := by
      rw [processChunk_multi _ _ _ _ _ hs]
      rw [getLastD_single, cutSuffix_nil, List.nil_append]
      rfl
    unfold emittedLines
    rw [procAll_cons, s1, procAll_nil]
    rfl
  rw [h1, h2]
  intro heq
  injection heq with h3 h4
  have h5 := congrArg List.length h3
  simp only [List.length_replicate] at h5
  omega

theorem cutSuffix_suffix (s : List Char) (n : Nat) :
    List.IsSuffix (cutSuffix s n) s := by
  unfold cutSuffix
  split
  · exact List.drop_suffix _ _
  · exact List.suffix_refl s

theorem cutSuffix_length_le (s : List Char) (n : Nat) :
    (cutSuffix s n).length ≤ n := by
  unfold cutSuffix
  split
  · rw [List.length_drop]
    omega
  · omega

theorem cutSuffix_eq_of_le (s : List Char) (n : Nat) (h : s.length ≤ n) :
    cutSuffix s n = s := by
  unfold cutSuffix
  rw [if_neg (by omega)]

/-- Claim C6: the per-stream reassembly keeps a residue string.  A
terminator-free fragment is appended to the residue (exactly, when the cap is
not exceeded); a fragment splitting into several pieces has the residue
prepended to its first piece, emits all pieces but the last as complete
lines, and makes the last piece the new residue; when the cap would be
exceeded, only oldest characters are dropped — the stored residue is always a
most-recent suffix, within the cap; and on exit a non-empty residue is
flushed as a final line. -/
theorem claim_C6_residue_algorithm :
    (∀ r chunk : List Char, noNl chunk →
       (processChunk r chunk).1 = []
       ∧ List.IsSuffix (processChunk r chunk).2 (r ++ chunk)
       ∧ ((r ++ chunk).length ≤ MAX_LINE_PORTION_LENGTH →
           (processChunk r chunk).2 = r ++ chunk)
       ∧ (processChunk r chunk).2.length ≤ MAX_LINE_PORTION_LENGTH)
    ∧ (∀ (r chunk p q : List Char) (ps : List (List Char)),
        splitNl chunk = p :: q :: ps →
        (processChunk r chunk).1 = ((r ++ p) :: q :: ps).dropLast
        ∧ List.IsSuffix (processChunk r chunk).2 ((q :: ps).getLastD [])
        ∧ (((q :: ps).getLastD []).length ≤ MAX_LINE_PORTION_LENGTH →
            (processChunk r chunk).2 = (q :: ps).getLastD []))
    ∧ (∀ r : List Char, r ≠ [] → flushResidue r = ([r], []))
    ∧ flushResidue [] = ([], []) := by
  refine ⟨?_, ?_, ?_, rfl⟩
  · intro r chunk hnoc
    have hs := splitNl_of_noNl chunk hnoc
    rw [processChunk_single r chunk chunk hs]
    by_cases hif : MAX_LINE_PORTION_LENGTH
        < r.length + (cutSuffix chunk MAX_LINE_PORTION_LENGTH).length
    · rw [if_pos hif]
      refine ⟨rfl, ?_, ?_, ?_⟩
      · exact (cutSuffix_suffix chunk _).trans (List.suffix_append r chunk)
      · intro hle
        exfalso
        rw [List.length_append] at hle
        have h1 : chunk.length ≤ MAX_LINE_PORTION_LENGTH := by omega
        rw [cutSuffix_eq_of_le chunk _ h1] at hif
        omega
      · exact cutSuffix_length_le chunk _
    · rw [if_neg hif]
      refine ⟨rfl, ?_, ?_, ?_⟩
      · by_cases hlen : chunk.length ≤ MAX_LINE_PORTION_LENGTH
        · rw [cutSuffix_eq_of_le chunk _ hlen]
        · have hcl : (cutSuffix chunk MAX_LINE_PORTION_LENGTH).length
              = MAX_LINE_PORTION_LENGTH := by
            unfold cutSuffix
            rw [if_pos (by omega), List.length_drop]
            omega
          have hr0 : r = [] := by
            have : r.length = 0 := by omega
            exact List.length_eq_zero.mp this
          subst hr0
          rw [List.nil_append, List.nil_append]
          exact cutSuffix_suffix chunk _
      · intro hle
        rw [List.length_append] at hle
        rw [cutSuffix_eq_of_le chunk _ (by omega)]
      · rw [List.length_append]
        omega
  · intro r chunk p q ps hs
    rw [processChunk_multi r chunk p q ps hs]
    exact ⟨rfl, cutSuffix_suffix _ _, fun h => cutSuffix_eq_of_le _ _ h⟩
  · intro r hr
    unfold flushResidue
    rw [if_neg hr]

/-- Witness for C6 at concrete fragments. -/
theorem claim_C6_residue_algorithm_witness :
    (processChunk ['x'] ['y']).2 = ['x', 'y']
    ∧ (processChunk ['a'] ['b', nlChar, 'c']).1 = [['a', 'b']]
    ∧ (processChunk ['a'] ['b', nlChar, 'c']).2 = ['c']
    ∧ flushResidue ['z'] = ([['z']], []) := by
  refine ⟨?_, ?_, ?_, ?_⟩
  · have h := (claim_C6_residue_algorithm.1 ['x'] ['y']
      (by unfold noNl; decide)).2.2.1 (by decide)
    simpa using h
  · have h := (claim_C6_residue_algorithm.2.1 ['a'] ['b', nlChar, 'c'] ['b'] ['c'] []
      (by decide)).1
    simpa using h
  · have h := (claim_C6_residue_algorithm.2.1 ['a'] ['b', nlChar, 'c'] ['b'] ['c'] []
      (by decide)).2.2 (by decide)
    simpa using h
  · exact claim_C6_residue_algorithm.2.2.1 ['z'] (by decide)

/-- Witness for C5 (amended) at a concrete two-chunk stream. -/
theorem claim_C5_line_reassembly_witness :
    (∀ p ∈ splitNl ([['a', nlChar], ['b']] : List (List Char)).flatten,
      p.length ≤ MAX_LINE_PORTION_LENGTH)
    ∧ emittedLines [['a', nlChar], ['b']]
        = emittedLines [([['a', nlChar], ['b']] : List (List Char)).flatten] :=
  ⟨by decide, claim_C5_line_reassembly [['a', nlChar], ['b']] (by decide)⟩
